import Mathlib

/-!
Shallow embedding of the QRH-256 hash implementation (`qrh_256.c`) over `Nat`,
with 32-bit machine arithmetic modelled by explicit reduction modulo `2 ^ 32`
and 64-bit (`size_t`) arithmetic by reduction modulo `2 ^ 64`.  Byte buffers
are `List Nat`; the 16-word state and the 16-word block buffer are
`List Nat` of length 16 accessed with `List.getD`/`List.set`, mirroring the
C arrays.
-/

/-- The C macro `ROTL32(v, n) = (v << n) | (v >> (32 - n))` applied to a
`uint32_t` operand: the left shift wraps modulo `2 ^ 32`. -/
def rotl32 (v n : Nat) : Nat := ((v <<< n) % 2 ^ 32) ||| (v >>> (32 - n))

/-- The same C macro `ROTL32` applied to a 64-bit (`size_t`) operand: the
left shift wraps modulo `2 ^ 64` while the right shift count is still
`32 - n`, exactly as the macro expands. -/
def rotl32on64 (v n : Nat) : Nat := ((v <<< n) % 2 ^ 64) ||| (v >>> (32 - n))

/-- The constant table `constants[16]` from `qrh_256.c`. -/
def constants : List Nat :=
  [0x6A09E667, 0xBB67AE85, 0x3C6EF372, 0xA54FF53A,
   0x510E527F, 0x9B05688C, 0x1F83D9AB, 0x5BE0CD19,
   0xC1059ED8, 0x367CD507, 0x3070DD17, 0xF70E5939,
   0xFFC00B31, 0x68581511, 0x64F98FA7, 0xBEFA4FA4]

/-- `read_u32_le`: reads 4 bytes at `off` as a little-endian 32-bit value
(the offset advance is handled by the callers of this embedding). -/
def read_u32_le (buf : List Nat) (off : Nat) : Nat :=
  buf.getD off 0 |||
  (buf.getD (off + 1) 0 <<< 8) |||
  (buf.getD (off + 2) 0 <<< 16) |||
  (buf.getD (off + 3) 0 <<< 24)

/-- Modelled from the spec: `read_u32_le_dynamic` is called by `qrh_256` but
its definition is not among the provided sources.  Per spec section 4.1 the
variant reads the `n` (1 to 3) available bytes as a little-endian value,
treats the missing high-order bytes as zero, and advances the offset by the
number of bytes read (the advance is handled by the callers here). -/
def read_u32_le_dynamic (buf : List Nat) (off n : Nat) : Nat :=
  (List.range n).foldl (fun v k => v ||| (buf.getD (off + k) 0 <<< (8 * k))) 0

/-- `wrno_u32_le`: serializes one 32-bit word to 4 little-endian bytes. -/
def wrno_u32_le (v : Nat) : List Nat :=
  [v % 256, (v >>> 8) % 256, (v >>> 16) % 256, (v >>> 24) % 256]

/-- `round2`: the pairwise mixing round over two words. -/
def round2 (a b : Nat) : Nat × Nat :=
  let a1 := (a + (b ||| a)) % 2 ^ 32
  let b1 := (b + (b ||| a1)) % 2 ^ 32
  let a2 := (a1 + rotl32 a1 13) % 2 ^ 32
  let b2 := (b1 + rotl32 b1 14) % 2 ^ 32
  let b3 := b2 ^^^ rotl32 b2 15
  let a3 := (a2 + rotl32 a2 26) % 2 ^ 32
  let a4 := (a3 + rotl32 a3 11) % 2 ^ 32
  let b4 := (b3 + rotl32 b3 10) % 2 ^ 32
  let b5 := b4 ^^^ rotl32 ((a4 + b4) % 2 ^ 32) 23
  let a5 := a4 ^^^ rotl32 ((b5 + a4) % 2 ^ 32) 10
  (a5, b5)

/-- `add3`: the triple mixing over three words. -/
def add3 (a b c : Nat) : Nat × Nat × Nat :=
  let a1 := (a + (c + b)) % 2 ^ 32
  let b1 := (b + (a1 + c)) % 2 ^ 32
  let c1 := (c + (a1 + b1)) % 2 ^ 32
  let a2 := (a1 + rotl32 c1 19) % 2 ^ 32
  let b2 := (b1 + rotl32 a2 13) % 2 ^ 32
  let c2 := (c1 + rotl32 b2 8) % 2 ^ 32
  (a2, b2, c2)

/-- `round4`: the quarter round over four words. -/
def round4 (a b c d : Nat) : Nat × Nat × Nat × Nat :=
  let a1 := (a + b) % 2 ^ 32
  let b1 := b ^^^ d
  let b2 := rotl32 b1 9
  let a2 := rotl32 a1 6
  let c1 := (c + d) % 2 ^ 32
  let a3 := a2 ^^^ c1
  let d1 := rotl32 d 12
  let c2 := rotl32 c1 13
  let a4 := (a3 + b2) % 2 ^ 32
  let c3 := c2 ^^^ d1
  let b3 := rotl32 d1 14
  let a5 := rotl32 a4 25
  let c4 := (c3 + d1) % 2 ^ 32
  let a6 := a5 ^^^ b3
  let d2 := rotl32 b3 23
  let c5 := rotl32 c4 30
  (a6, b3, c5, d2)

/-- `round_matrix`: the composed matrix round over four words. -/
def round_matrix (a b c d : Nat) : Nat × Nat × Nat × Nat :=
  let t1 := add3 b c a
  let t2 := add3 t1.2.2 t1.2.1 d
  let t3 := round4 t2.1 t1.1 t2.2.1 t2.2.2
  let t4 := add3 t3.2.1 t3.2.2.2 t3.1
  let t5 := add3 t4.1 t3.2.2.1 t4.2.1
  (t4.2.2, t5.1, t5.2.1, t5.2.2)

/-- Applies `round2` to the state words at indices `i` and `j`,
as in `round2(&state[i], &state[j])`. -/
def applyPair (s : List Nat) (i j : Nat) : List Nat :=
  let p := round2 (s.getD i 0) (s.getD j 0)
  (s.set i p.1).set j p.2

/-- Applies `round_matrix` to the state words at indices `i`, `j`, `k`, `l`,
as in `round_matrix(&state[i], &state[j], &state[k], &state[l])`. -/
def applyQuad (s : List Nat) (i j k l : Nat) : List Nat :=
  let q := round_matrix (s.getD i 0) (s.getD j 0) (s.getD k 0) (s.getD l 0)
  (((s.set i q.1).set j q.2.1).set k q.2.2.1).set l q.2.2.2

/-- One half round of `qrh_run_state`: the sixteen `round2` calls in
source order. -/
def halfRound (s : List Nat) : List Nat :=
  let s := applyPair s 0 5
  let s := applyPair s 1 6
  let s := applyPair s 2 7
  let s := applyPair s 3 4
  let s := applyPair s 4 9
  let s := applyPair s 5 10
  let s := applyPair s 6 11
  let s := applyPair s 7 8
  let s := applyPair s 8 13
  let s := applyPair s 9 14
  let s := applyPair s 10 15
  let s := applyPair s 11 12
  let s := applyPair s 12 1
  let s := applyPair s 13 2
  let s := applyPair s 14 3
  applyPair s 15 0

/-- One matrix round of `qrh_run_state`: the four column `round_matrix`
calls followed by the four diagonal ones, in source order. -/
def matrixRoundOnce (s : List Nat) : List Nat :=
  let s := applyQuad s 0 4 8 12
  let s := applyQuad s 1 5 9 13
  let s := applyQuad s 2 6 10 14
  let s := applyQuad s 3 7 11 15
  let s := applyQuad s 0 5 10 15
  let s := applyQuad s 1 6 11 12
  let s := applyQuad s 2 7 8 13
  applyQuad s 3 4 9 14

/-- Iteration `i` of the loop of `qrh_diffuse_words`:
`words[i] ^= ROTL32(words[(i + 7) % 16], 11)` then
`words[i] += ROTL32(words[(i + 3) % 16], 17)`, in place. -/
def diffuseStep (w : List Nat) (i : Nat) : List Nat :=
  let w1 := w.set i ((w.getD i 0) ^^^ rotl32 (w.getD ((i + 7) % 16) 0) 11)
  w1.set i ((w1.getD i 0 + rotl32 (w1.getD ((i + 3) % 16) 0) 17) % 2 ^ 32)

/-- `qrh_diffuse_words`: the in-place sequential diffusion sweep. -/
def qrh_diffuse_words (words : List Nat) : List Nat :=
  (List.range 16).foldl diffuseStep words

/-- Applies `f` to `s`, `n` times (the C `for` loops with a fixed count). -/
def iterN (f : List Nat → List Nat) : Nat → List Nat → List Nat
  | 0, s => s
  | n + 1, s => iterN f n (f s)

/-- `QRH_HALF_ROUNDS` (default build). -/
def QRH_HALF_ROUNDS : Nat := 4

/-- `QRH_MATRIX_ROUNDS` (default build). -/
def QRH_MATRIX_ROUNDS : Nat := 2

/-- `QRH_DIFFUSIONS` (default build). -/
def QRH_DIFFUSIONS : Nat := 4

/-- `qrh_run_state`: half rounds, then matrix rounds, then diffusion sweeps. -/
def qrh_run_state (state : List Nat) : List Nat :=
  iterN qrh_diffuse_words QRH_DIFFUSIONS
    (iterN matrixRoundOnce QRH_MATRIX_ROUNDS
      (iterN halfRound QRH_HALF_ROUNDS state))

/-- The constant-table index `((i + 1) * ROTL32(input_len, 15)) % 16` used
inside `qrh_length_inject`; the multiplication is 64-bit (`size_t`). -/
def injectTableIndex (i len : Nat) : Nat :=
  ((i + 1) * rotl32on64 (len % 2 ^ 64) 15) % 2 ^ 64 % 16

/-- The state-word index derived in iteration `i` of `qrh_length_inject`:
`idx_seed & 15` followed by `(x + i) & 15`. -/
def injectIndex (i combined schema blk len : Nat) : Nat :=
  let idx_seed :=
    combined ^^^ rotl32 schema 11 ^^^
    rotl32 ((blk % 2 ^ 32) ^^^ combined) 23 ^^^
    ((i * constants.getD (injectTableIndex i len) 0) % 2 ^ 32)
  ((idx_seed &&& 15) + i) &&& 15

/-- One iteration of the 4-step loop of `qrh_length_inject`, threading the
state words, the schema and `combined`. -/
def injectStep (len blk : Nat) (acc : List Nat × Nat × Nat) (i : Nat) :
    List Nat × Nat × Nat :=
  let words := acc.1
  let schema := acc.2.1
  let combined := acc.2.2
  let x := injectIndex i combined schema blk len
  let words1 := words.set x ((words.getD x 0) ^^^ rotl32 combined 9)
  let wx := words1.getD x 0
  let schema1 := ((schema + wx) % 2 ^ 32) ^^^ wx
  let schema2 := rotl32 schema1 19
  (words1, schema2, combined ^^^ schema2)

/-- `qrh_length_inject`: returns the updated state words and schema. -/
def qrh_length_inject (words : List Nat) (len blk schema : Nat) :
    List Nat × Nat :=
  let bit_len := (len * 8) % 2 ^ 64
  let len_lo := bit_len % 2 ^ 32
  let len_hi := bit_len >>> 32
  let blk32 := blk % 2 ^ 32
  let c := schema ^^^ rotl32 blk32 22 ^^^ rotl32 len_lo 17 ^^^ rotl32 len_hi 13
  let schema1 := schema ^^^ c
  let combined := (c + schema1) % 2 ^ 32
  let r := (List.range 4).foldl (injectStep len blk) (words, schema1, combined)
  (r.1, r.2.1)

/-- The number of block-buffer words written while decoding a chunk of
`chunkLen` bytes: `chunkLen / 4` full words plus one zero-filled word when a
1 to 3 byte tail remains. -/
def populatedWords (chunkLen : Nat) : Nat :=
  chunkLen / 4 + if chunkLen % 4 ≠ 0 then 1 else 0

/-- The block decoding step of the absorption loop: overwrites the full
words and the possible tail word of `blocks` from the chunk bytes; the
remaining words of `blocks` are left as they were. -/
def decodeBlocks (blocks chunk : List Nat) : List Nat :=
  let fw := chunk.length / 4
  let pb := chunk.length % 4
  let b := (List.range fw).foldl (fun b i => b.set i (read_u32_le chunk (4 * i))) blocks
  if pb ≠ 0 then b.set fw (read_u32_le_dynamic chunk (4 * fw) pb) else b

/-- The block mixing step of the absorption loop:
`state[i] ^= blocks[i] + ROTL32(blocks[(i + 1) % 16], i)` for all 16 `i`. -/
def mixBlocks (state blocks : List Nat) : List Nat :=
  (List.range 16).foldl
    (fun s i =>
      s.set i ((s.getD i 0) ^^^
        ((blocks.getD i 0 + rotl32 (blocks.getD ((i + 1) % 16) 0) i) % 2 ^ 32)))
    state

/-- The schema seed of `qrh_256`:
`constants[(input_len << 8) % QRH_CONSTANTS_SIZE]`, the shift in 64-bit
(`size_t`) arithmetic. -/
def schemaSeed (len : Nat) : Nat :=
  constants.getD (((len <<< 8) % 2 ^ 64) % 16) 0

/-- The absorption loop of `qrh_256`, with `rest = input.drop offset`; the
`fuel` argument only bounds the iteration count and `qrh_256` supplies
enough of it for the loop to run to completion. -/
def qrh_absorb (fuel : Nat) (state blocks : List Nat) (schema len offset : Nat)
    (rest : List Nat) : List Nat :=
  match fuel with
  | 0 => state
  | fuel + 1 =>
    if rest.isEmpty then state
    else
      let chunk := rest.take 64
      let blocks1 := decodeBlocks blocks chunk
      let state1 := mixBlocks state blocks1
      let r := qrh_length_inject state1 len offset schema
      let state2 := qrh_run_state r.1
      qrh_absorb fuel state2 blocks1 r.2 len (offset + chunk.length) (rest.drop 64)

/-- The finishing whitening pass of `qrh_256` over indices 0, 4, 8, 12:
`state[i] ^= ROTL32(input_len << (((i * 5 + 7) % 16) + 10), 6)`, the shift
and the macro in 64-bit arithmetic, truncated to 32 bits on assignment. -/
def qrh_final_whiten (len : Nat) (state : List Nat) : List Nat :=
  [0, 4, 8, 12].foldl
    (fun s i =>
      s.set i ((s.getD i 0) ^^^
        (rotl32on64 ((len <<< ((i * 5 + 7) % 16 + 10)) % 2 ^ 64) 6 % 2 ^ 32)))
    state

/-- `qrh_finalize`: serializes state words 0 to 7 little-endian. -/
def qrh_finalize (words : List Nat) : List Nat :=
  ((List.range 8).map (fun i => wrno_u32_le (words.getD i 0))).flatten

/-- `qrh_256`: the top-level hash, producing the 32 digest bytes. -/
def qrh_256 (input : List Nat) : List Nat :=
  let len := input.length
  let state := qrh_absorb (len + 1) constants (List.replicate 16 0)
    (schemaSeed len) len 0 input
  qrh_finalize (qrh_final_whiten len state)

/-- `qrh_alloc_256`: allocates a 32-byte buffer and writes the digest into
it; the buffer is fully overwritten, so the result is the digest itself. -/
def qrh_alloc_256 (input : List Nat) : List Nat := qrh_256 input

/-- `memcpy(dst, src, src.length)` restricted to the copied region: writes
the bytes of `src` over the front of `dst`. -/
def memWrite : List Nat → List Nat → List Nat
  | dst, [] => dst
  | [], _ :: _ => []
  | _ :: ds, s :: ss => s :: memWrite ds ss

/-- `memcpy(dst + off, src, src.length)`: writes `src` into `dst` starting
at byte offset `off`. -/
def memWriteAt (dst : List Nat) (off : Nat) (src : List Nat) : List Nat :=
  dst.take off ++ memWrite (dst.drop off) src

/-- `qrh_256_hmac`: the keyed-MAC construction. -/
def qrh_256_hmac (key msg : List Nat) : List Nat :=
  let key_block :=
    if key.length > 64 then memWrite (List.replicate 64 0) (qrh_alloc_256 key)
    else memWrite (List.replicate 64 0) key
  let out_padding := key_block.map (fun b => b ^^^ 0x5c)
  let in_padding := key_block.map (fun b => b ^^^ 0x36)
  let inner_data :=
    memWriteAt (memWriteAt (List.replicate (64 + msg.length) 0) 0 in_padding) 64 msg
  let inner_hash := qrh_alloc_256 inner_data
  let outer_data :=
    memWriteAt (memWriteAt (List.replicate (64 + 32) 0) 0 out_padding) 64 inner_hash
  qrh_alloc_256 outer_data

/-- The matrix round as claim C4 words it: a single triple-mix, then the
quarter-round, then two further triple-mixes, with the same argument wiring
as `round_matrix` minus its second leading `add3`.  Used only to compare
against `round_matrix`. -/
def round_matrix_claimed (a b c d : Nat) : Nat × Nat × Nat × Nat :=
  let t1 := add3 b c a
  let t3 := round4 t1.2.2 t1.1 t1.2.1 d
  let t4 := add3 t3.2.1 t3.2.2.2 t3.1
  let t5 := add3 t4.1 t3.2.2.1 t4.2.1
  (t4.2.2, t5.1, t5.2.1, t5.2.2)

/-- The diffusion sweep as claim C3 words it: every read takes the value the
state held before the sweep began.  Used only to compare against
`qrh_diffuse_words`. -/
def qrh_diffuse_words_claimed (w : List Nat) : List Nat :=
  (List.range 16).map (fun i =>
    ((w.getD i 0 ^^^ rotl32 (w.getD ((i + 7) % 16) 0) 11) +
      rotl32 (w.getD ((i + 3) % 16) 0) 17) % 2 ^ 32)

/-- The absorption loop as claim C1 words it: the block buffer is reset to
all zeros before each chunk is decoded.  Used only to compare against
`qrh_absorb`. -/
def qrh_absorb_zeroed (fuel : Nat) (state : List Nat) (schema len offset : Nat)
    (rest : List Nat) : List Nat :=
  match fuel with
  | 0 => state
  | fuel + 1 =>
    if rest.isEmpty then state
    else
      let chunk := rest.take 64
      let blocks1 := decodeBlocks (List.replicate 16 0) chunk
      let state1 := mixBlocks state blocks1
      let r := qrh_length_inject state1 len offset schema
      let state2 := qrh_run_state r.1
      qrh_absorb_zeroed fuel state2 r.2 len (offset + chunk.length) (rest.drop 64)

/-- The hash with the per-chunk buffer zeroing that claim C1 describes.
Used only to compare against `qrh_256`. -/
def qrh_256_buffer_zeroed (input : List Nat) : List Nat :=
  let len := input.length
  let state := qrh_absorb_zeroed (len + 1) constants (schemaSeed len) len 0 input
  qrh_finalize (qrh_final_whiten len state)

/-- The sixteen index pairs of one half round, grouped in four layers of
four, in the order the source applies them. -/
def halfRoundPairs : List (Nat × Nat) :=
  [(0, 5), (1, 6), (2, 7), (3, 4),
   (4, 9), (5, 10), (6, 11), (7, 8),
   (8, 13), (9, 14), (10, 15), (11, 12),
   (12, 1), (13, 2), (14, 3), (15, 0)]

/-- The eight index groups of one matrix round: the four column groups then
the four diagonal groups, in the order the source applies them. -/
def matrixGroups : List (Nat × Nat × Nat × Nat) :=
  [(0, 4, 8, 12), (1, 5, 9, 13), (2, 6, 10, 14), (3, 7, 11, 15),
   (0, 5, 10, 15), (1, 6, 11, 12), (2, 7, 8, 13), (3, 4, 9, 14)]

/-- The HMAC key block as the spec words it: the 32-byte hash of the key
zero-padded to 64 bytes when the key is longer than 64 bytes, the key
itself zero-padded to 64 bytes otherwise. -/
def hmacKeyBlockSpec (key : List Nat) : List Nat :=
  if key.length > 64 then qrh_256 key ++ List.replicate 32 0
  else key ++ List.replicate (64 - key.length) 0

/-- The prefix of the diffusion sweep that has completed the loop
iterations `0` to `m - 1`; `qrh_diffuse_words` is `diffuseUpTo 16`. -/
def diffuseUpTo (m : Nat) (w : List Nat) : List Nat :=
  (List.range m).foldl diffuseStep w

/-- Reading any index other than the one written is unchanged by `set`. -/
theorem getD_set_ne (l : List Nat) (i j a : Nat) (h : i ≠ j) :
    (l.set i a).getD j 0 = l.getD j 0 := by
  simp [List.getD_eq_getElem?_getD, List.getElem?_set_ne h]

/-- Reading an in-bounds index just written by `set` yields the written value. -/
theorem getD_set_eq (l : List Nat) (i a : Nat) (h : i < l.length) :
    (l.set i a).getD i 0 = a := by
  simp [List.getD_eq_getElem?_getD, List.getElem?_set_self, h]

/-- A fold of index-wise writes leaves every index it never writes unchanged. -/
theorem getD_foldl_set (f : Nat → Nat) (L : List Nat) (b : List Nat) (j : Nat)
    (h : ∀ i ∈ L, i ≠ j) :
    (L.foldl (fun acc i => acc.set i (f i)) b).getD j 0 = b.getD j 0 := by
  induction L generalizing b with
  | nil => rfl
  | cons x xs ih =>
    simp only [List.foldl_cons]
    rw [ih _ (fun i hi => h i (List.mem_cons_of_mem x hi)),
      getD_set_ne _ _ _ _ (h x (List.mem_cons_self x xs))]

set_option maxRecDepth 100000 in
/-- C1 (counterexample): on the 65-byte input `[1, …, 1, 2]` the block
buffer decoded for the second chunk keeps the first chunk's word
`0x01010101` at index 1, beyond the single populated word, and the digest
differs from the digest of the per-chunk-zeroing variant the claim
describes. -/
theorem qrh_c1_counterexample :
    populatedWords ([2] : List Nat).length = 1 ∧
    (decodeBlocks (decodeBlocks (List.replicate 16 0) (List.replicate 64 1)) [2]).getD 1 0 =
      0x01010101 ∧
    (decodeBlocks (decodeBlocks (List.replicate 16 0) (List.replicate 64 1)) [2]).getD 1 0 ≠ 0 ∧
    qrh_256 (List.replicate 64 1 ++ [2]) ≠
      qrh_256_buffer_zeroed (List.replicate 64 1 ++ [2]) := by
  refine ⟨by decide, by decide, by decide, by decide⟩

/-- C1 (amended): the block buffer is zeroed once, before the absorption
loop; decoding a chunk overwrites only the populated words, so every word
beyond them keeps the value it had from the previous chunk (zero only when
nothing was written there before). -/
theorem qrh_c1_block_buffer (prev chunk : List Nat) (j : Nat)
    (hj : populatedWords chunk.length ≤ j) :
    (decodeBlocks prev chunk).getD j 0 = prev.getD j 0 := by
  unfold populatedWords at hj
  unfold decodeBlocks
  by_cases hpb : chunk.length % 4 ≠ 0
  · simp only [if_pos hpb] at hj ⊢
    rw [getD_set_ne _ _ _ _ (by omega)]
    exact getD_foldl_set _ _ _ _ (fun i hi => by
      have := List.mem_range.mp hi; omega)
  · simp only [if_neg hpb] at hj ⊢
    exact getD_foldl_set _ _ _ _ (fun i hi => by
      have := List.mem_range.mp hi; omega)

/-- C1 (witness). -/
theorem qrh_c1_block_buffer_witness :
    populatedWords ([2] : List Nat).length ≤ 1 ∧
    (decodeBlocks [7, 7, 7, 7, 7, 7, 7, 7, 7, 7, 7, 7, 7, 7, 7, 7] [2]).getD 1 0 =
      ([7, 7, 7, 7, 7, 7, 7, 7, 7, 7, 7, 7, 7, 7, 7, 7] : List Nat).getD 1 0 :=
  ⟨by decide, qrh_c1_block_buffer [7, 7, 7, 7, 7, 7, 7, 7, 7, 7, 7, 7, 7, 7, 7, 7] [2] 1
    (by decide)⟩

/-- C2: a half round is the pairwise round folded over the sixteen pairs of
`halfRoundPairs`; their first components cover the indices 0 to 15 exactly,
the four layers start at 0, 4, 8, 12 (stride 4), and the final wraparound
layer pairs 12 with 1, 13 with 2, 14 with 3 and 15 with 0. -/
theorem qrh_c2_half_round_layers :
    (∀ s : List Nat, halfRound s = halfRoundPairs.foldl (fun t p => applyPair t p.1 p.2) s) ∧
    halfRoundPairs.map Prod.fst = List.range 16 ∧
    halfRoundPairs.take 4 = [(0, 5), (1, 6), (2, 7), (3, 4)] ∧
    halfRoundPairs.drop 12 = [(12, 1), (13, 2), (14, 3), (15, 0)] := by
  refine ⟨fun s => ?_, by decide, by decide, by decide⟩
  simp only [halfRound, halfRoundPairs, List.foldl_cons, List.foldl_nil]

/-- C4 (counterexample): the composed matrix round is not the claimed
one-triple-mix composition: they differ on the words (1, 2, 3, 4). -/
theorem qrh_c4_counterexample :
    round_matrix 1 2 3 4 ≠ round_matrix_claimed 1 2 3 4 := by decide

/-- C4 (amended): the composed matrix round is two triple-mixes, then one
quarter-round, then two further triple-mixes, and one matrix round of the
permutation applies it to the four column groups and then the four diagonal
groups of `matrixGroups`. -/
theorem qrh_c4_matrix_structure :
    (∀ a b c d : Nat, round_matrix a b c d =
      (let t1 := add3 b c a
       let t2 := add3 t1.2.2 t1.2.1 d
       let t3 := round4 t2.1 t1.1 t2.2.1 t2.2.2
       let t4 := add3 t3.2.1 t3.2.2.2 t3.1
       let t5 := add3 t4.1 t3.2.2.1 t4.2.1
       (t4.2.2, t5.1, t5.2.1, t5.2.2))) ∧
    (∀ s : List Nat, matrixRoundOnce s =
      matrixGroups.foldl (fun t g => applyQuad t g.1 g.2.1 g.2.2.1 g.2.2.2) s) ∧
    matrixGroups.take 4 = [(0, 4, 8, 12), (1, 5, 9, 13), (2, 6, 10, 14), (3, 7, 11, 15)] ∧
    matrixGroups.drop 4 = [(0, 5, 10, 15), (1, 6, 11, 12), (2, 7, 8, 13), (3, 4, 9, 14)] := by
  refine ⟨fun a b c d => ?_, fun s => ?_, by decide, by decide⟩
  · simp only [round_matrix]
  · simp only [matrixRoundOnce, matrixGroups, List.foldl_cons, List.foldl_nil]

set_option maxRecDepth 10000 in
/-- C5: the digest of the empty input is the little-endian serialization of
the first eight constants, and the finishing whitening pass of a zero
length leaves the (constant) state unchanged. -/
theorem qrh_c5_empty_digest :
    qrh_256 [] = [0x67, 0xE6, 0x09, 0x6A, 0x85, 0xAE, 0x67, 0xBB,
      0x72, 0xF3, 0x6E, 0x3C, 0x3A, 0xF5, 0x4F, 0xA5,
      0x7F, 0x52, 0x0E, 0x51, 0x8C, 0x68, 0x05, 0x9B,
      0xAB, 0xD9, 0x83, 0x1F, 0x19, 0xCD, 0xE0, 0x5B] ∧
    qrh_final_whiten 0 constants = constants := by
  refine ⟨by decide, by decide⟩

/-- C8: every state-word index derived by a length-injection iteration is
below 16, every constant-table index it uses is below 16, and the injection
never changes the length of the state. -/
theorem qrh_c8_inject_in_bounds :
    (∀ i combined schema blk len : Nat, injectIndex i combined schema blk len < 16) ∧
    (∀ i len : Nat, injectTableIndex i len < 16) ∧
    (∀ words : List Nat, ∀ len blk schema : Nat,
      ((qrh_length_inject words len blk schema).1).length = words.length) := by
  refine ⟨fun i combined schema blk len => ?_, fun i len => ?_, fun words len blk schema => ?_⟩
  · exact Nat.lt_succ_of_le Nat.and_le_right
  · exact Nat.mod_lt _ (by norm_num)
  · simp [qrh_length_inject, injectStep, List.range_succ]

/-- C9: the hash and the HMAC are deterministic functions of their byte
inputs: equal inputs give equal digests and tags. -/
theorem qrh_c9_deterministic :
    (∀ a b : List Nat, a = b → qrh_256 a = qrh_256 b) ∧
    (∀ k k2 m m2 : List Nat, k = k2 → m = m2 → qrh_256_hmac k m = qrh_256_hmac k2 m2) :=
  ⟨fun _ _ h => h ▸ rfl, fun _ _ _ _ hk hm => hk ▸ hm ▸ rfl⟩

/-- C9 (witness). -/
theorem qrh_c9_deterministic_witness :
    ([1, 2] : List Nat) = [1, 2] ∧ qrh_256 [1, 2] = qrh_256 [1, 2] ∧
    qrh_256_hmac [3] [4] = qrh_256_hmac [3] [4] :=
  ⟨rfl, qrh_c9_deterministic.1 [1, 2] [1, 2] rfl,
    qrh_c9_deterministic.2 [3] [3] [4] [4] rfl rfl⟩

/-- C10: the seeding index `(input_len << 8) % 16` is zero for every input
length, so the schema accumulator is always seeded with
`constants[0] = 0x6A09E667`. -/
theorem qrh_c10_schema_seed (len : Nat) :
    ((len <<< 8) % 2 ^ 64) % 16 = 0 ∧ schemaSeed len = 0x6A09E667 := by
  have h : ((len <<< 8) % 2 ^ 64) % 16 = 0 := by
    rw [Nat.mod_mod_of_dvd _ (by norm_num : (16 : Nat) ∣ 2 ^ 64),
      Nat.shiftLeft_eq]
    have : len * 2 ^ 8 = len * 16 * 16 := by ring
    rw [this, Nat.mul_mod_left]
  refine ⟨h, ?_⟩
  unfold schemaSeed
  rw [h]
  decide

/-- C3 (counterexample): the sequential in-place sweep differs from the
claimed pre-update-snapshot sweep already on the state `0, 1, …, 15`. -/
theorem qrh_c3_counterexample :
    qrh_diffuse_words (List.range 16) ≠ qrh_diffuse_words_claimed (List.range 16) := by
  decide

/-- The sweep prefix never changes an index at or beyond the number of
completed iterations. -/
theorem diffuseUpTo_getD_of_le (w : List Nat) (m k : Nat) (h : m ≤ k) :
    (diffuseUpTo m w).getD k 0 = w.getD k 0 := by
  induction m with
  | zero => rfl
  | succ m ih =>
    have hs : diffuseUpTo (m + 1) w = diffuseStep (diffuseUpTo m w) m := by
      unfold diffuseUpTo
      rw [List.range_succ, List.foldl_append, List.foldl_cons, List.foldl_nil]
    rw [hs]
    unfold diffuseStep
    rw [getD_set_ne _ _ _ _ (by omega), getD_set_ne _ _ _ _ (by omega)]
    exact ih (by omega)

/-- An index finished by the sweep prefix keeps its value in every longer
prefix. -/
theorem diffuseUpTo_getD_of_lt (w : List Nat) (m k : Nat) (h : k < m) :
    (diffuseUpTo m w).getD k 0 = (diffuseUpTo (k + 1) w).getD k 0 := by
  induction m with
  | zero => omega
  | succ m ih =>
    rcases Nat.lt_or_ge k m with hk | hk
    · have hs : diffuseUpTo (m + 1) w = diffuseStep (diffuseUpTo m w) m := by
        unfold diffuseUpTo
        rw [List.range_succ, List.foldl_append, List.foldl_cons, List.foldl_nil]
      rw [hs]
      unfold diffuseStep
      rw [getD_set_ne _ _ _ _ (by omega), getD_set_ne _ _ _ _ (by omega)]
      exact ih hk
    · have : k = m := by omega
      subst this
      rfl

/-- The sweep prefix keeps the state length. -/
theorem diffuseUpTo_length (w : List Nat) (m : Nat) :
    (diffuseUpTo m w).length = w.length := by
  induction m with
  | zero => rfl
  | succ m ih =>
    have hs : diffuseUpTo (m + 1) w = diffuseStep (diffuseUpTo m w) m := by
      unfold diffuseUpTo
      rw [List.range_succ, List.foldl_append, List.foldl_cons, List.foldl_nil]
    rw [hs]
    unfold diffuseStep
    simp only [List.length_set]
    exact ih

/-- C3 (amended): the sweep updates the sixteen words sequentially in
place, so the read at `(i + 7) % 16` or `(i + 3) % 16` sees the already
updated (final) value whenever that index is below `i`, and the original
pre-sweep value otherwise. -/
theorem qrh_c3_sequential_reads (w : List Nat) (hw : w.length = 16) (i : Nat)
    (hi : i < 16) :
    (qrh_diffuse_words w).getD i 0 =
      ((w.getD i 0 ^^^
        rotl32 (if (i + 7) % 16 < i then (qrh_diffuse_words w).getD ((i + 7) % 16) 0
          else w.getD ((i + 7) % 16) 0) 11) +
       rotl32 (if (i + 3) % 16 < i then (qrh_diffuse_words w).getD ((i + 3) % 16) 0
          else w.getD ((i + 3) % 16) 0) 17) % 2 ^ 32 := by
  have hq : qrh_diffuse_words w = diffuseUpTo 16 w := rfl
  have hs : diffuseUpTo (i + 1) w = diffuseStep (diffuseUpTo i w) i := by
    unfold diffuseUpTo
    rw [List.range_succ, List.foldl_append, List.foldl_cons, List.foldl_nil]
  have hlen : i < (diffuseUpTo i w).length := by
    rw [diffuseUpTo_length, hw]; exact hi
  have hstep : (diffuseUpTo (i + 1) w).getD i 0 =
      (((diffuseUpTo i w).getD i 0 ^^^
        rotl32 ((diffuseUpTo i w).getD ((i + 7) % 16) 0) 11) +
       rotl32 ((diffuseUpTo i w).getD ((i + 3) % 16) 0) 17) % 2 ^ 32 := by
    rw [hs]
    unfold diffuseStep
    rw [getD_set_eq _ _ _ (by simpa using hlen),
      getD_set_eq _ _ _ hlen,
      getD_set_ne _ _ _ _ (by omega)]
  have hread : ∀ k, k < 16 → (diffuseUpTo i w).getD k 0 =
      (if k < i then (qrh_diffuse_words w).getD k 0 else w.getD k 0) := by
    intro k hk
    by_cases hki : k < i
    · rw [if_pos hki, hq, diffuseUpTo_getD_of_lt w 16 k (by omega),
        diffuseUpTo_getD_of_lt w i k hki]
    · rw [if_neg hki]
      exact diffuseUpTo_getD_of_le w i k (by omega)
  rw [hq, diffuseUpTo_getD_of_lt w 16 i hi, ← hq, hstep,
    diffuseUpTo_getD_of_le w i i (by omega),
    hread ((i + 7) % 16) (by omega), hread ((i + 3) % 16) (by omega)]

/-- C3 (witness). -/
theorem qrh_c3_sequential_reads_witness :
    (List.range 16).length = 16 ∧ 12 < 16 ∧
    (qrh_diffuse_words (List.range 16)).getD 12 0 =
      (((List.range 16).getD 12 0 ^^^
        rotl32 (if (12 + 7) % 16 < 12 then (qrh_diffuse_words (List.range 16)).getD ((12 + 7) % 16) 0
          else (List.range 16).getD ((12 + 7) % 16) 0) 11) +
       rotl32 (if (12 + 3) % 16 < 12 then (qrh_diffuse_words (List.range 16)).getD ((12 + 3) % 16) 0
          else (List.range 16).getD ((12 + 3) % 16) 0) 17) % 2 ^ 32 :=
  ⟨by decide, by decide, qrh_c3_sequential_reads (List.range 16) (by decide) 12 (by decide)⟩

/-- `memWrite` never changes the length of the destination buffer. -/
theorem memWrite_length (src : List Nat) : ∀ dst : List Nat,
    (memWrite dst src).length = dst.length := by
  induction src with
  | nil => intro dst; cases dst <;> rfl
  | cons s ss ih =>
    intro dst
    cases dst with
    | nil => rfl
    | cons d ds => simp [memWrite, ih ds]

/-- Copying a buffer that fits overwrites the front of the destination and
keeps its tail. -/
theorem memWrite_eq_append (src : List Nat) : ∀ dst : List Nat,
    src.length ≤ dst.length → memWrite dst src = src ++ dst.drop src.length := by
  induction src with
  | nil => intro dst h; simp [memWrite]
  | cons s ss ih =>
    intro dst h
    cases dst with
    | nil => simp at h
    | cons d ds =>
      simp only [memWrite, List.length_cons, List.cons_append, List.drop_succ_cons]
      rw [ih ds (by simpa using h)]

/-- Copying into a zeroed buffer zero-pads the source to the buffer size. -/
theorem memWrite_replicate_zero (src : List Nat) (n : Nat) (h : src.length ≤ n) :
    memWrite (List.replicate n 0) src = src ++ List.replicate (n - src.length) 0 := by
  rw [memWrite_eq_append src _ (by simpa using h), List.drop_replicate]

/-- The two `memcpy` calls into a zeroed `64 + n` byte buffer concatenate a
64-byte head with an `n`-byte tail. -/
theorem memWriteAt_assemble (a b : List Nat) (n : Nat) (ha : a.length = 64)
    (hb : b.length = n) :
    memWriteAt (memWriteAt (List.replicate (64 + n) 0) 0 a) 64 b = a ++ b := by
  unfold memWriteAt
  simp only [List.take_zero, List.drop_zero, List.nil_append]
  rw [memWrite_replicate_zero a _ (by omega),
    show 64 + n - a.length = n by omega,
    List.take_left' ha, List.drop_left' ha,
    memWrite_replicate_zero b n (by omega)]
  simp [hb]

/-- Every digest this embedding produces has exactly 32 bytes. -/
theorem qrh_digest_length (input : List Nat) : (qrh_256 input).length = 32 := rfl

/-- `qrh_finalize` unfolded: the four little-endian bytes of each of the
state words 0 to 7, concatenated. -/
theorem qrh_finalize_eq (w : List Nat) :
    qrh_finalize w =
      wrno_u32_le (w.getD 0 0) ++ wrno_u32_le (w.getD 1 0) ++
      wrno_u32_le (w.getD 2 0) ++ wrno_u32_le (w.getD 3 0) ++
      wrno_u32_le (w.getD 4 0) ++ wrno_u32_le (w.getD 5 0) ++
      wrno_u32_le (w.getD 6 0) ++ wrno_u32_le (w.getD 7 0) := rfl

/-- The key block computed by `qrh_256_hmac` equals the spec's description
of it. -/
theorem hmac_key_block_eq (key : List Nat) :
    (if key.length > 64 then memWrite (List.replicate 64 0) (qrh_256 key)
     else memWrite (List.replicate 64 0) key) = hmacKeyBlockSpec key := by
  unfold hmacKeyBlockSpec
  by_cases h : key.length > 64
  · rw [if_pos h, if_pos h,
      memWrite_replicate_zero _ _ (by rw [qrh_digest_length]; omega),
      qrh_digest_length]
  · rw [if_neg h, if_neg h, memWrite_replicate_zero _ _ (by omega)]

/-- The spec-form key block is 64 bytes long. -/
theorem hmacKeyBlockSpec_length (key : List Nat) :
    (hmacKeyBlockSpec key).length = 64 := by
  unfold hmacKeyBlockSpec
  by_cases h : key.length > 64
  · rw [if_pos h]; simp [qrh_digest_length]
  · rw [if_neg h]; simp; omega

/-- C6: the HMAC builds the 64-byte key block the spec describes, XORs it
with 0x36 and 0x5c into the inner and outer pads, and returns
`hash(out_pad ++ hash(in_pad ++ message))`. -/
theorem qrh_c6_hmac_structure (key msg : List Nat) :
    qrh_256_hmac key msg =
      qrh_256 ((hmacKeyBlockSpec key).map (fun b => b ^^^ 0x5c) ++
        qrh_256 ((hmacKeyBlockSpec key).map (fun b => b ^^^ 0x36) ++ msg)) := by
  simp only [qrh_256_hmac, qrh_alloc_256]
  rw [hmac_key_block_eq key,
    memWriteAt_assemble _ msg msg.length (by simp [hmacKeyBlockSpec_length]) rfl,
    memWriteAt_assemble _ _ 32 (by simp [hmacKeyBlockSpec_length]) (qrh_digest_length _)]

/-- C7: the digest is always exactly 32 bytes, the HMAC tag is always
exactly 32 bytes, and finalization depends only on state words 0 to 7. -/
theorem qrh_c7_output_sizes :
    (∀ input : List Nat, (qrh_256 input).length = 32) ∧
    (∀ key msg : List Nat, (qrh_256_hmac key msg).length = 32) ∧
    (∀ w w2 : List Nat, (∀ i, i < 8 → w.getD i 0 = w2.getD i 0) →
      qrh_finalize w = qrh_finalize w2) := by
  refine ⟨fun input => qrh_digest_length input, fun key msg => rfl, fun w w2 h => ?_⟩
  rw [qrh_finalize_eq w, qrh_finalize_eq w2,
    h 0 (by norm_num), h 1 (by norm_num), h 2 (by norm_num), h 3 (by norm_num),
    h 4 (by norm_num), h 5 (by norm_num), h 6 (by norm_num), h 7 (by norm_num)]

/-- C7 (witness). -/
theorem qrh_c7_output_sizes_witness :
    (qrh_256 [5]).length = 32 ∧ (qrh_256_hmac [1] [2]).length = 32 ∧
    qrh_finalize [0, 1, 2, 3, 4, 5, 6, 7, 8, 9, 10, 11, 12, 13, 14, 15] =
      qrh_finalize [0, 1, 2, 3, 4, 5, 6, 7, 99, 99, 99, 99, 99, 99, 99, 99] :=
  ⟨qrh_c7_output_sizes.1 [5], qrh_c7_output_sizes.2.1 [1] [2],
    qrh_c7_output_sizes.2.2 _ _ (by decide)⟩
